import Mathlib

/-
  Verification of the `http-serde-ex` serialization adapters.

  The development shallowly embeds the three source files of the crate:
  - `src/lib.rs`: the `header_map`, `status_code`, `method` and `uri` adapter
    modules (plus the validation behaviour of the external `http` types they
    call into: `HeaderName::from_bytes`, `HeaderValue::from_bytes`/`from_str`,
    `HeaderValue::to_str`, `StatusCode::from_u16`);
  - `src/option.rs`: the generic `OptionVisitor` lifter and the
    `impl_option_with!` modules, together with the relevant parts of the serde
    framework contract (the default `Visitor` methods and the way a
    self-describing format driver dispatches `deserialize_option` /
    `deserialize_map`).

  Byte strings are modelled as `List Nat`, the serde data model as the
  inductive `SValue`, and `http::HeaderMap` as an ordered association list
  from (lower-cased) header names to the ordered list of their values, which
  is exactly the observable state of the real hash map (its entry vector is
  kept in first-insertion order).
-/

namespace HttpSerde

/-- Byte strings (header names, header values, and the bytes of text strings). -/
abbrev Bytes := List Nat

/-! ### External `http` type validation

`HeaderName::from_bytes` consults a 256-entry table mapping every valid header
name byte to its canonical (lower-cased) form and every invalid byte to 0.
Valid bytes are the RFC 7230 token characters; uppercase letters are mapped to
lowercase. -/

/-- The `HDR_NAME` table of `http::header::name`: canonical byte for valid
header-name characters, 0 for invalid ones. -/
def headerNameByteMap (b : Nat) : Nat :=
  if 97 ≤ b ∧ b ≤ 122 then b
  else if 65 ≤ b ∧ b ≤ 90 then b + 32
  else if 48 ≤ b ∧ b ≤ 57 then b
  else if b = 33 ∨ b = 35 ∨ b = 36 ∨ b = 37 ∨ b = 38 ∨ b = 39 ∨ b = 42 ∨
          b = 43 ∨ b = 45 ∨ b = 46 ∨ b = 94 ∨ b = 95 ∨ b = 96 ∨ b = 124 ∨
          b = 126 then b
  else 0

/-- `http::HeaderName::from_bytes`: fails on the empty string or on any
invalid byte, otherwise yields the canonical (lower-cased) name. -/
def headerNameFromBytes (bs : Bytes) : Option Bytes :=
  if bs.isEmpty then Option.none
  else if bs.all (fun b => headerNameByteMap b != 0) then
    Option.some (bs.map headerNameByteMap)
  else Option.none

/-- A byte string that is already a canonical header name (nonempty, every
byte valid and fixed by the canonicalisation table). Real `HeaderName` values
satisfy this by construction. -/
def nameCanonical (n : Bytes) : Bool :=
  !n.isEmpty && n.all (fun b => headerNameByteMap b == b && b != 0)

/-- `is_valid` of `http::header::value`, used by both
`HeaderValue::from_bytes` and `HeaderValue::from_str` (`.parse()`):
a byte is legal in a header value iff it is ≥ 32 and not DEL, or is TAB. -/
def headerValueByteValid (b : Nat) : Bool :=
  (32 ≤ b && b != 127) || b == 9

/-- `HeaderValue::from_bytes` / `HeaderValue::from_str` succeed exactly when
every byte is legal. -/
def headerValueIsValid (v : Bytes) : Bool :=
  v.all headerValueByteValid

/-- `is_visible_ascii` of `http::header::value`: `HeaderValue::to_str`
succeeds exactly when every byte is in 32..126 or is TAB (bytes ≥ 128 are
legal in a value but have no text form). -/
def headerValueByteVisible (b : Nat) : Bool :=
  (32 ≤ b && b < 127) || b == 9

/-- `HeaderValue::to_str` succeeds exactly on visible-ASCII values. -/
def headerValueIsVisible (v : Bytes) : Bool :=
  v.all headerValueByteVisible

/-! ### The header map

`http::HeaderMap` keeps its entries in a vector ordered by first insertion of
each distinct (case-insensitive) name; each entry carries the ordered list of
that name's values. `keys()` iterates the distinct names in that order and
`get_all` returns one name's values in insertion order. -/

/-- Observable state of an `http::HeaderMap`. -/
structure HeaderMap where
  entries : List (Bytes × List Bytes)
deriving Repr, DecidableEq

/-- `HeaderMap::append` on the underlying entry list: extend the value list of
an existing name, or add a fresh entry at the end. -/
def appendEntry : List (Bytes × List Bytes) → Bytes → Bytes → List (Bytes × List Bytes)
  | [], k, v => [(k, [v])]
  | (k', vs) :: rest, k, v =>
    if k' = k then (k', vs ++ [v]) :: rest
    else (k', vs) :: appendEntry rest k v

/-- `HeaderMap::insert` on the underlying entry list: replace the value list
of an existing name (keeping its slot), or add a fresh entry at the end. -/
def insertEntry : List (Bytes × List Bytes) → Bytes → Bytes → List (Bytes × List Bytes)
  | [], k, v => [(k, [v])]
  | (k', vs) :: rest, k, v =>
    if k' = k then (k', [v]) :: rest
    else (k', vs) :: insertEntry rest k v

/-- Association lookup returning a name's ordered value list ( `get_all`,
empty when absent). -/
def assocGet : List (Bytes × List Bytes) → Bytes → List Bytes
  | [], _ => []
  | (k', vs) :: rest, k => if k' = k then vs else assocGet rest k

def HeaderMap.append (m : HeaderMap) (k v : Bytes) : HeaderMap :=
  ⟨appendEntry m.entries k v⟩

def HeaderMap.insert (m : HeaderMap) (k v : Bytes) : HeaderMap :=
  ⟨insertEntry m.entries k v⟩

def HeaderMap.keys (m : HeaderMap) : List Bytes :=
  m.entries.map Prod.fst

def HeaderMap.getAll (m : HeaderMap) (k : Bytes) : List Bytes :=
  assocGet m.entries k

/-- `HeaderMap::with_capacity`: the capacity is a pure allocation hint with no
observable effect on the map's contents, so the model is the empty map. -/
def HeaderMap.withCapacity (_c : Nat) : HeaderMap :=
  ⟨[]⟩

/-- Invariants every real `http::HeaderMap` satisfies by construction:
distinct canonical names, each with a nonempty list of valid values. -/
def HeaderMap.WF (m : HeaderMap) : Prop :=
  (m.entries.map Prod.fst).Nodup ∧
  ∀ e ∈ m.entries, nameCanonical e.1 = true ∧ e.2 ≠ [] ∧
    ∀ v ∈ e.2, headerValueIsValid v = true

instance (m : HeaderMap) : Decidable m.WF := by
  unfold HeaderMap.WF; infer_instance

/-! ### The serde data model -/

/-- The serde serialization tree for self-describing formats: strings, byte
arrays, integers, sequences, maps with string keys, and the absence marker
(`null` / `None`). -/
inductive SValue where
  | str (s : Bytes)
  | bytes (b : Bytes)
  | int (n : Int)
  | seq (items : List SValue)
  | map (entries : List (Bytes × SValue))
  | none

/-- `serde::de::Unexpected` payloads used by the crate. -/
inductive Unexpected where
  | ustr (s : Bytes)
  | ubytes (b : Bytes)
  | unsigned (n : Nat)
  | signed (n : Int)
  | option
  | mapKind
  | other
deriving Repr, DecidableEq

/-- serde decode errors: `Error::invalid_value`, `Error::invalid_type`, and
the custom error an untagged enum raises when no variant matches. -/
inductive DeError where
  | invalidValue (u : Unexpected)
  | invalidType (u : Unexpected)
  | untaggedNoMatch
deriving Repr, DecidableEq

/-! ### `header_map` encode (`ToSeq::serialize` and `header_map::serialize`) -/

/-- `ToSeq::serialize` for the ordered values of one name.
Human-readable target: a single value with a text form becomes a bare string;
otherwise a sequence of the text forms of the values, in order, values without
a text form filtered out (`filter_map(|v| v.to_str().ok())`).
Binary target: always the sequence of the raw byte arrays, in order. -/
def toSeqSerialize (hr : Bool) (vals : List Bytes) : SValue :=
  if hr then
    match vals with
    | [v] =>
      if headerValueIsVisible v then SValue.str v
      else SValue.seq ((vals.filter headerValueIsVisible).map SValue.str)
    | _ => SValue.seq ((vals.filter headerValueIsVisible).map SValue.str)
  else
    SValue.seq (vals.map SValue.bytes)

/-- `header_map::serialize`: `collect_map` over `keys()`, each key paired with
the `ToSeq` encoding of `get_all(key)`. -/
def headerMapSerialize (hr : Bool) (m : HeaderMap) : SValue :=
  SValue.map (m.keys.map (fun k => (k, toSeqSerialize hr (m.getAll k))))

/-! ### `header_map` decode -/

/-- Deserializing one sequence element as `&[u8]`: serde's borrowed byte
slice accepts both byte-array and string nodes. -/
def decodeBytesElem : SValue → Except DeError Bytes
  | SValue.bytes b => Except.ok b
  | SValue.str s => Except.ok s
  | _ => Except.error (DeError.invalidType Unexpected.other)

/-- Deserializing a map value as `Vec<&[u8]>` (the binary branch of
`visit_map`): the node must be a sequence of byte arrays. -/
def decodeVecBytes : SValue → Except DeError (List Bytes)
  | SValue.seq items => items.mapM decodeBytesElem
  | _ => Except.error (DeError.invalidType Unexpected.other)

/-- One sequence element as `Cow<str>`: only string nodes. -/
def asStrElem : SValue → Option Bytes
  | SValue.str s => Option.some s
  | _ => Option.none

/-- One sequence element as `Cow<[u8]>`: byte arrays, and strings via serde's
byte visitor. -/
def asBytesElem : SValue → Option Bytes
  | SValue.bytes b => Option.some b
  | SValue.str s => Option.some s
  | _ => Option.none

/-- The untagged `OneOrMore` enum of `header_map`. -/
inductive OneOrMore where
  | one (s : Bytes)
  | strings (l : List Bytes)
  | bytesArr (l : List Bytes)
deriving Repr, DecidableEq

/-- Untagged deserialization of `OneOrMore`, trying the variants in
declaration order: `One(Cow<str>)` matches a string node; `Strings` a
sequence of strings; `Bytes` a sequence of byte arrays (or strings, per
serde's byte visitor); anything else is the untagged-enum mismatch error. -/
def oneOrMoreDeserialize : SValue → Except DeError OneOrMore
  | SValue.str s => Except.ok (OneOrMore.one s)
  | SValue.seq items =>
    match items.mapM asStrElem with
    | Option.some l => Except.ok (OneOrMore.strings l)
    | Option.none =>
      match items.mapM asBytesElem with
      | Option.some l => Except.ok (OneOrMore.bytesArr l)
      | Option.none => Except.error DeError.untaggedNoMatch
  | _ => Except.error DeError.untaggedNoMatch

/-- The per-value loop shared by the sequence branches of `visit_map`: each
element is validated (`HeaderValue::from_str` on the human-readable string
path, `HeaderValue::from_bytes` on the byte paths — the same byte validity
check) and appended; the first invalid element aborts with `invalid_value`
carrying the element (`mk` selects `Unexpected::Str` or `Unexpected::Bytes`
to match the source branch). -/
def appendValues (mk : Bytes → Unexpected) (m : HeaderMap) (k : Bytes) :
    List Bytes → Except DeError HeaderMap
  | [] => Except.ok m
  | v :: rest =>
    if headerValueIsValid v then appendValues mk (m.append k v) k rest
    else Except.error (DeError.invalidValue (mk v))

/-- The body of the binary `while` loop of `HeaderMapVisitor::visit_map` for
one map entry: deserialize the value as `Vec<&[u8]>`, validate the key as a
header name, then validate and append every value. -/
def stepBinary (m : HeaderMap) (key : Bytes) (v : SValue) : Except DeError HeaderMap :=
  match decodeVecBytes v with
  | Except.error e => Except.error e
  | Except.ok arr =>
    match headerNameFromBytes key with
    | Option.none => Except.error (DeError.invalidValue (Unexpected.ustr key))
    | Option.some k => appendValues Unexpected.ubytes m k arr

/-- The body of the human-readable `while` loop of
`HeaderMapVisitor::visit_map` for one map entry: deserialize the value as
`OneOrMore`, validate the key, then `One` parses and `insert`s the single
value, `Strings` parses and `append`s each element, `Bytes` constructs and
`append`s each element. -/
def stepHR (m : HeaderMap) (key : Bytes) (v : SValue) : Except DeError HeaderMap :=
  match oneOrMoreDeserialize v with
  | Except.error e => Except.error e
  | Except.ok oom =>
    match headerNameFromBytes key with
    | Option.none => Except.error (DeError.invalidValue (Unexpected.ustr key))
    | Option.some k =>
      match oom with
      | OneOrMore.one s =>
        if headerValueIsValid s then Except.ok (m.insert k s)
        else Except.error (DeError.invalidValue (Unexpected.ustr s))
      | OneOrMore.strings arr => appendValues Unexpected.ustr m k arr
      | OneOrMore.bytesArr arr => appendValues Unexpected.ubytes m k arr

/-- The entry loop of `visit_map` (`while let Some(..) = access.next_entry()`),
parameterized by the per-entry body. -/
def visitLoop (step : HeaderMap → Bytes → SValue → Except DeError HeaderMap) :
    HeaderMap → List (Bytes × SValue) → Except DeError HeaderMap
  | m, [] => Except.ok m
  | m, (key, v) :: rest =>
    match step m key v with
    | Except.ok m' => visitLoop step m' rest
    | Except.error e => Except.error e

/-- `HeaderMapVisitor::visit_map`: start from
`HeaderMap::with_capacity(access.size_hint().unwrap_or(0))` and run the
binary or human-readable entry loop according to the flag captured at the
start of the decode. -/
def headerMapVisitMap (hr : Bool) (sizeHint : Option Nat)
    (es : List (Bytes × SValue)) : Except DeError HeaderMap :=
  let m := HeaderMap.withCapacity (sizeHint.getD 0)
  if hr then visitLoop stepHR m es else visitLoop stepBinary m es

/-- `header_map::deserialize`: query `is_human_readable` once, then
`deserialize_map` — the driver hands a map node's entries (with the format's
size hint) to the visitor and rejects any other node kind. -/
def headerMapDeserialize (hr : Bool) (sizeHint : Option Nat) (v : SValue) :
    Except DeError HeaderMap :=
  match v with
  | SValue.map es => headerMapVisitMap hr sizeHint es
  | _ => Except.error (DeError.invalidType Unexpected.other)

/-! ### `status_code` -/

/-- Rust's `as u16` cast on a signed integer: two's-complement truncation to
16 bits. -/
def rustAsU16 (v : Int) : Nat :=
  (v % 65536).toNat

/-- `StatusVisitor::visit_u16`: `StatusCode::from_u16` accepts exactly the
range 100..999 and the failure is mapped to `invalid_value` carrying the
(narrowed) number. -/
def statusVisitU16 (n : Nat) : Except DeError Nat :=
  if n < 100 ∨ 1000 ≤ n then Except.error (DeError.invalidValue (Unexpected.unsigned n))
  else Except.ok n

/-- An integer handed to the status visitor by the format driver, tagged with
the serde integer width it arrives at. -/
inductive IntInput where
  | i16 (v : Int)
  | i32 (v : Int)
  | i64 (v : Int)
  | u8 (v : Nat)
  | u16 (v : Nat)
  | u32 (v : Nat)
  | u64 (v : Nat)
deriving Repr, DecidableEq

/-- The payload ranges of the corresponding Rust integer types. -/
def IntInput.WF : IntInput → Prop
  | IntInput.i16 v => -32768 ≤ v ∧ v < 32768
  | IntInput.i32 v => -(2 ^ 31) ≤ v ∧ v < 2 ^ 31
  | IntInput.i64 v => -(2 ^ 63) ≤ v ∧ v < 2 ^ 63
  | IntInput.u8 v => v < 256
  | IntInput.u16 v => v < 65536
  | IntInput.u32 v => v < 2 ^ 32
  | IntInput.u64 v => v < 2 ^ 64

instance (iv : IntInput) : Decidable iv.WF := by
  cases iv <;> (unfold IntInput.WF; infer_instance)

/-- The mathematical integer carried by an input. -/
def IntInput.val : IntInput → Int
  | IntInput.i16 v => v
  | IntInput.i32 v => v
  | IntInput.i64 v => v
  | IntInput.u8 v => (v : Int)
  | IntInput.u16 v => (v : Int)
  | IntInput.u32 v => (v : Int)
  | IntInput.u64 v => (v : Int)

/-- The 16-bit narrowing of an input's value (what `val as u16` computes). -/
def IntInput.toU16 (iv : IntInput) : Nat :=
  (iv.val % 65536).toNat

/-- The `visit_*` family of `StatusVisitor`: every width forwards to
`visit_u16` through Rust's `as u16` cast (`u8` and `u16` casts are
value-preserving). -/
def statusVisit : IntInput → Except DeError Nat
  | IntInput.i16 v => statusVisitU16 (rustAsU16 v)
  | IntInput.i32 v => statusVisitU16 (rustAsU16 v)
  | IntInput.i64 v => statusVisitU16 (rustAsU16 v)
  | IntInput.u8 v => statusVisitU16 v
  | IntInput.u16 v => statusVisitU16 v
  | IntInput.u32 v => statusVisitU16 (v % 65536)
  | IntInput.u64 v => statusVisitU16 (v % 65536)

/-- `status_code::serialize`: `serialize_u16(status.as_u16())`, an integer
node. -/
def statusSerialize (status : Nat) : SValue :=
  SValue.int (status : Int)

/-! ### The serde `Visitor` contract and the `option` module

`src/option.rs` builds `OptionVisitor` on top of serde's `Visitor` trait.
The structure below carries the trait's methods that matter here, each with
serde's *default* body (reject with `invalid_type`); an adapter overrides
exactly the methods its Rust counterpart implements. -/

/-- The serde `Visitor` trait (the methods relevant to this crate), with
serde's default implementations as default field values. -/
structure Visitor (α : Type) where
  visitI16 : Int → Except DeError α :=
    fun v => Except.error (DeError.invalidType (Unexpected.signed v))
  visitI32 : Int → Except DeError α :=
    fun v => Except.error (DeError.invalidType (Unexpected.signed v))
  visitI64 : Int → Except DeError α :=
    fun v => Except.error (DeError.invalidType (Unexpected.signed v))
  visitU8 : Nat → Except DeError α :=
    fun v => Except.error (DeError.invalidType (Unexpected.unsigned v))
  visitU16 : Nat → Except DeError α :=
    fun v => Except.error (DeError.invalidType (Unexpected.unsigned v))
  visitU32 : Nat → Except DeError α :=
    fun v => Except.error (DeError.invalidType (Unexpected.unsigned v))
  visitU64 : Nat → Except DeError α :=
    fun v => Except.error (DeError.invalidType (Unexpected.unsigned v))
  visitStr : Bytes → Except DeError α :=
    fun s => Except.error (DeError.invalidType (Unexpected.ustr s))
  visitStringB : Bytes → Except DeError α :=
    fun s => Except.error (DeError.invalidType (Unexpected.ustr s))
  visitMapE : Option Nat → List (Bytes × SValue) → Except DeError α :=
    fun _ _ => Except.error (DeError.invalidType Unexpected.mapKind)
  visitNone : Except DeError α :=
    Except.error (DeError.invalidType Unexpected.option)
  visitSome : SValue → Except DeError α :=
    fun _ => Except.error (DeError.invalidType Unexpected.option)

/-- `StatusVisitor` as a `Visitor`: overrides exactly
`visit_i32/i16/u8/u32/i64/u64/u16`, nothing else. -/
def statusVisitor : Visitor Nat where
  visitI16 := fun v => statusVisitU16 (rustAsU16 v)
  visitI32 := fun v => statusVisitU16 (rustAsU16 v)
  visitI64 := fun v => statusVisitU16 (rustAsU16 v)
  visitU8 := fun v => statusVisitU16 v
  visitU16 := fun v => statusVisitU16 v
  visitU32 := fun v => statusVisitU16 (v % 65536)
  visitU64 := fun v => statusVisitU16 (v % 65536)

/-- `OptionVisitor<V>` of `src/option.rs`: forwards `visit_map` and the
`impl_visit!` scalar methods (i32, i16, u8, u32, i64, u64, u16, str, string)
to the inner visitor, wrapping successes in `Some`. It overrides neither
`visit_none` nor `visit_some`, so those keep serde's defaults. -/
def OptionVisitor (inner : Visitor α) : Visitor (Option α) where
  visitI16 := fun v => (inner.visitI16 v).map Option.some
  visitI32 := fun v => (inner.visitI32 v).map Option.some
  visitI64 := fun v => (inner.visitI64 v).map Option.some
  visitU8 := fun v => (inner.visitU8 v).map Option.some
  visitU16 := fun v => (inner.visitU16 v).map Option.some
  visitU32 := fun v => (inner.visitU32 v).map Option.some
  visitU64 := fun v => (inner.visitU64 v).map Option.some
  visitStr := fun s => (inner.visitStr s).map Option.some
  visitStringB := fun s => (inner.visitStringB s).map Option.some
  visitMapE := fun h es => (inner.visitMapE h es).map Option.some

/-- A self-describing format driver's `deserialize_option` (serde_json,
serde_yaml, serde_cbor and bincode all have this shape): the absence marker
goes to `visit_none`, any other node goes to `visit_some` with the same
node. -/
def deserializeOption (vis : Visitor α) (v : SValue) : Except DeError α :=
  match v with
  | SValue.none => vis.visitNone
  | w => vis.visitSome w

/-- The generic serialize half of `impl_option_with!`: `Some` delegates to
the inner adapter's encoder, `None` is `serialize_none()` (the absence
marker). -/
def optionSerialize (innerSer : α → SValue) : Option α → SValue
  | Option.some v => innerSer v
  | Option.none => SValue.none

/-- `option::status_code::serialize`. -/
def optionStatusCodeSerialize : Option Nat → SValue :=
  optionSerialize statusSerialize

/-- `option::status_code::deserialize`:
`de.deserialize_option(OptionVisitor(StatusVisitor))`. -/
def optionStatusCodeDeserialize (v : SValue) : Except DeError (Option Nat) :=
  deserializeOption (OptionVisitor statusVisitor) v

/-! ### `authority` and `version` -/

/-- Modelled from the spec: the `authority` and `version` adapter modules are
referenced by `src/option.rs` and by the tests, but their source is not among
the provided files. Per §4.1 of the spec both follow the string-projection
pattern: encode produces the value's canonical string form. The external
type's canonical rendering is abstracted as `toCanonical`. -/
def stringValueSerialize (toCanonical : α → Bytes) (v : α) : SValue :=
  SValue.str (toCanonical v)

/-- Modelled from the spec: the decode half of the `authority` / `version`
adapters. Per §4.1 decode accepts a string node, parses it via the external
type's grammar (abstracted as `parse`), and fails with an invalid-value error
carrying the rejected string on malformed or unrecognized input; any
non-string node is a shape mismatch. -/
def stringValueDeserialize (parse : Bytes → Option α) (v : SValue) :
    Except DeError α :=
  match v with
  | SValue.str s =>
    match parse s with
    | Option.some a => Except.ok a
    | Option.none => Except.error (DeError.invalidValue (Unexpected.ustr s))
  | _ => Except.error (DeError.invalidType Unexpected.other)

/-- Modelled from the spec: `authority::serialize` (missing from the provided
sources), the canonical-string projection for the external authority type. -/
def authoritySerialize (toCanonical : α → Bytes) (v : α) : SValue :=
  stringValueSerialize toCanonical v

/-- Modelled from the spec: `authority::deserialize` (missing from the
provided sources). -/
def authorityDeserialize (parse : Bytes → Option α) (v : SValue) :
    Except DeError α :=
  stringValueDeserialize parse v

/-- Modelled from the spec: `version::serialize` (missing from the provided
sources), the canonical-string projection for the external version type. -/
def versionSerialize (toCanonical : α → Bytes) (v : α) : SValue :=
  stringValueSerialize toCanonical v

/-- Modelled from the spec: `version::deserialize` (missing from the provided
sources). -/
def versionDeserialize (parse : Bytes → Option α) (v : SValue) :
    Except DeError α :=
  stringValueDeserialize parse v

/-! ### Round-trip statement helpers -/

/-- The effect of the human-readable encode's best-effort text fallback on a
header map: each name keeps, in order, the values that have a text form; a
name all of whose values lack one disappears. -/
def hrFilterEntries : List (Bytes × List Bytes) → List (Bytes × List Bytes)
  | [] => []
  | e :: es =>
    if (e.2.filter headerValueIsVisible).isEmpty then hrFilterEntries es
    else (e.1, e.2.filter headerValueIsVisible) :: hrFilterEntries es

/-- The header map a same-format round trip must produce: the original map in
binary mode, the text-filtered map in human-readable mode. -/
def roundTripExpected (hr : Bool) (m : HeaderMap) : HeaderMap :=
  if hr then ⟨hrFilterEntries m.entries⟩ else m

/-- Proof helper: the cumulative effect of appending every value of a list. -/
def HeaderMap.appendAll (m : HeaderMap) (k : Bytes) (vs : List Bytes) : HeaderMap :=
  vs.foldl (fun m' v => m'.append k v) m

/-- Whether an `Except` computation succeeded. -/
def exceptOk {α : Type} : Except DeError α → Bool
  | Except.ok _ => true
  | Except.error _ => false

/-- Whether a map entry's value node has one of the shapes the decoder
accepts in the given mode (so that its failure, if any, is a name/value
validation failure rather than a shape mismatch). -/
def entryWellShaped (hr : Bool) (v : SValue) : Bool :=
  if hr then exceptOk (oneOrMoreDeserialize v) else exceptOk (decodeVecBytes v)

/-- The header values an entry's node carries in the given mode (empty when
the node is ill-shaped). -/
def carriedValues (hr : Bool) (v : SValue) : List Bytes :=
  if hr then
    match oneOrMoreDeserialize v with
    | Except.ok (OneOrMore.one s) => [s]
    | Except.ok (OneOrMore.strings l) => l
    | Except.ok (OneOrMore.bytesArr l) => l
    | Except.error _ => []
  else
    match decodeVecBytes v with
    | Except.ok l => l
    | Except.error _ => []

/-- The values carried by a parsed `OneOrMore`. -/
def oneOrMoreValues : OneOrMore → List Bytes
  | OneOrMore.one s => [s]
  | OneOrMore.strings l => l
  | OneOrMore.bytesArr l => l

/-- A map entry whose key fails header-name validation or one of whose
carried values fails header-value validation. -/
def entryMalformed (hr : Bool) (e : Bytes × SValue) : Bool :=
  (headerNameFromBytes e.1).isNone ||
    (carriedValues hr e.2).any (fun w => !headerValueIsValid w)

/-! ### Basic lemmas -/

theorem map_headerNameByteMap_eq (n : Bytes)
    (h : ∀ b ∈ n, headerNameByteMap b = b) :
    n.map headerNameByteMap = n := by
  induction n with
  | nil => rfl
  | cons b bs ih =>
    simp only [List.map_cons]
    rw [h b (List.mem_cons_self b bs), ih (fun x hx => h x (List.mem_cons_of_mem b hx))]

/-- A canonical name survives `HeaderName::from_bytes` unchanged. -/
theorem headerNameFromBytes_of_canonical (n : Bytes) (h : nameCanonical n = true) :
    headerNameFromBytes n = Option.some n := by
  unfold nameCanonical at h
  rw [Bool.and_eq_true] at h
  obtain ⟨h1, h2⟩ := h
  simp only [List.all_eq_true, Bool.and_eq_true, beq_iff_eq, bne_iff_ne] at h2
  unfold headerNameFromBytes
  rw [if_neg (by simpa using h1), if_pos]
  · rw [map_headerNameByteMap_eq n (fun b hb => (h2 b hb).1)]
  · simp only [List.all_eq_true, bne_iff_ne]
    intro b hb
    rw [(h2 b hb).1]
    exact (h2 b hb).2

theorem appendEntry_fresh (es : List (Bytes × List Bytes)) (k v : Bytes)
    (h : k ∉ es.map Prod.fst) :
    appendEntry es k v = es ++ [(k, [v])] := by
  induction es with
  | nil => rfl
  | cons e rest ih =>
    obtain ⟨k', vs⟩ := e
    simp only [List.map_cons, List.mem_cons] at h
    push_neg at h
    show (if k' = k then (k', vs ++ [v]) :: rest else (k', vs) :: appendEntry rest k v) =
      (k', vs) :: (rest ++ [(k, [v])])
    rw [if_neg (fun hk => h.1 (Eq.symm hk)), ih h.2]

theorem appendEntry_last (es : List (Bytes × List Bytes)) (k : Bytes)
    (us : List Bytes) (v : Bytes) (h : k ∉ es.map Prod.fst) :
    appendEntry (es ++ [(k, us)]) k v = es ++ [(k, us ++ [v])] := by
  induction es with
  | nil => simp [appendEntry]
  | cons e rest ih =>
    obtain ⟨k', vs⟩ := e
    simp only [List.map_cons, List.mem_cons] at h
    push_neg at h
    show (if k' = k then (k', vs ++ [v]) :: (rest ++ [(k, us)])
          else (k', vs) :: appendEntry (rest ++ [(k, us)]) k v) =
      (k', vs) :: (rest ++ [(k, us ++ [v])])
    rw [if_neg (fun hk => h.1 (Eq.symm hk)), ih h.2]

theorem insertEntry_fresh (es : List (Bytes × List Bytes)) (k v : Bytes)
    (h : k ∉ es.map Prod.fst) :
    insertEntry es k v = es ++ [(k, [v])] := by
  induction es with
  | nil => rfl
  | cons e rest ih =>
    obtain ⟨k', vs⟩ := e
    simp only [List.map_cons, List.mem_cons] at h
    push_neg at h
    show (if k' = k then (k', [v]) :: rest else (k', vs) :: insertEntry rest k v) =
      (k', vs) :: (rest ++ [(k, [v])])
    rw [if_neg (fun hk => h.1 (Eq.symm hk)), ih h.2]

theorem insertEntry_last (es : List (Bytes × List Bytes)) (k : Bytes)
    (us : List Bytes) (v : Bytes) (h : k ∉ es.map Prod.fst) :
    insertEntry (es ++ [(k, us)]) k v = es ++ [(k, [v])] := by
  induction es with
  | nil => simp [insertEntry]
  | cons e rest ih =>
    obtain ⟨k', vs⟩ := e
    simp only [List.map_cons, List.mem_cons] at h
    push_neg at h
    show (if k' = k then (k', [v]) :: (rest ++ [(k, us)])
          else (k', vs) :: insertEntry (rest ++ [(k, us)]) k v) =
      (k', vs) :: (rest ++ [(k, [v])])
    rw [if_neg (fun hk => h.1 (Eq.symm hk)), ih h.2]

theorem appendValues_ok (mk : Bytes → Unexpected) (m : HeaderMap) (k : Bytes)
    (vs : List Bytes) (h : ∀ v ∈ vs, headerValueIsValid v = true) :
    appendValues mk m k vs = Except.ok (m.appendAll k vs) := by
  induction vs generalizing m with
  | nil => rfl
  | cons v rest ih =>
    simp only [appendValues, if_pos (h v (List.mem_cons_self v rest))]
    rw [ih (m.append k v) (fun x hx => h x (List.mem_cons_of_mem v hx))]
    rfl

theorem appendAll_last (es : List (Bytes × List Bytes)) (k : Bytes)
    (us vs : List Bytes) (h : k ∉ es.map Prod.fst) :
    HeaderMap.appendAll ⟨es ++ [(k, us)]⟩ k vs = ⟨es ++ [(k, us ++ vs)]⟩ := by
  induction vs generalizing us with
  | nil => simp [HeaderMap.appendAll]
  | cons v rest ih =>
    show HeaderMap.appendAll (HeaderMap.append ⟨es ++ [(k, us)]⟩ k v) k rest = _
    rw [show HeaderMap.append ⟨es ++ [(k, us)]⟩ k v = ⟨es ++ [(k, us ++ [v])]⟩ by
      simp [HeaderMap.append, appendEntry_last es k us v h]]
    rw [ih (us ++ [v])]
    simp

theorem appendAll_fresh (es : List (Bytes × List Bytes)) (k : Bytes)
    (v : Bytes) (vs : List Bytes) (h : k ∉ es.map Prod.fst) :
    HeaderMap.appendAll ⟨es⟩ k (v :: vs) = ⟨es ++ [(k, v :: vs)]⟩ := by
  show HeaderMap.appendAll (HeaderMap.append ⟨es⟩ k v) k vs = _
  rw [show HeaderMap.append ⟨es⟩ k v = ⟨es ++ [(k, [v])]⟩ by
    simp [HeaderMap.append, appendEntry_fresh es k v h]]
  rw [appendAll_last es k [v] vs h]
  rfl

theorem mapM_decodeBytesElem (vs : List Bytes) :
    (vs.map SValue.bytes).mapM decodeBytesElem = Except.ok vs := by
  induction vs with
  | nil => rfl
  | cons v rest ih =>
    simp only [List.map_cons, List.mapM_cons, ih]
    rfl

theorem mapM_asStrElem (ss : List Bytes) :
    (ss.map SValue.str).mapM asStrElem = Option.some ss := by
  induction ss with
  | nil => rfl
  | cons s rest ih =>
    simp only [List.map_cons, List.mapM_cons, ih]
    rfl

/-- With distinct names, serializing via `keys()` and `get_all` is the map
over the underlying entries. -/
theorem keys_getAll_map (g : List Bytes → SValue) (es : List (Bytes × List Bytes))
    (h : (es.map Prod.fst).Nodup) :
    (es.map Prod.fst).map (fun k => (k, g (assocGet es k))) =
      es.map (fun e => (e.1, g e.2)) := by
  induction es with
  | nil => rfl
  | cons e rest ih =>
    obtain ⟨k, vs⟩ := e
    simp only [List.map_cons, List.nodup_cons] at h ⊢
    rw [show assocGet ((k, vs) :: rest) k = vs by simp [assocGet]]
    congr 1
    rw [List.map_congr_left (fun k' hk' => by
      have hne : k ≠ k' := fun he => h.1 (he ▸ hk')
      show (k', g (assocGet ((k, vs) :: rest) k')) = (k', g (assocGet rest k'))
      rw [show assocGet ((k, vs) :: rest) k' = assocGet rest k' by
        simp [assocGet, if_neg hne]])]
    exact ih h.2

/-! ### Round-trip lemmas -/

theorem stepBinary_encode (acc : List (Bytes × List Bytes)) (k : Bytes)
    (vs : List Bytes) (hcanon : nameCanonical k = true) (hne : vs ≠ [])
    (hval : ∀ v ∈ vs, headerValueIsValid v = true)
    (hfresh : k ∉ acc.map Prod.fst) :
    stepBinary ⟨acc⟩ k (toSeqSerialize false vs) = Except.ok ⟨acc ++ [(k, vs)]⟩ := by
  have h1 : decodeVecBytes (toSeqSerialize false vs) = Except.ok vs :=
    mapM_decodeBytesElem vs
  simp only [stepBinary, h1, headerNameFromBytes_of_canonical k hcanon]
  rw [appendValues_ok _ _ _ _ hval]
  obtain ⟨v, vs', rfl⟩ := List.exists_cons_of_ne_nil hne
  rw [appendAll_fresh acc k v vs' hfresh]

theorem oneOrMoreDeserialize_strs (l : List Bytes) :
    oneOrMoreDeserialize (SValue.seq (l.map SValue.str)) =
      Except.ok (OneOrMore.strings l) := by
  show (match (l.map SValue.str).mapM asStrElem with
    | Option.some l2 => Except.ok (OneOrMore.strings l2)
    | Option.none =>
      match (l.map SValue.str).mapM asBytesElem with
      | Option.some l2 => Except.ok (OneOrMore.bytesArr l2)
      | Option.none => Except.error DeError.untaggedNoMatch) =
    Except.ok (OneOrMore.strings l)
  rw [mapM_asStrElem]

theorem stepHR_encode (acc : List (Bytes × List Bytes)) (k : Bytes)
    (vs : List Bytes) (hcanon : nameCanonical k = true) (hne : vs ≠ [])
    (hval : ∀ v ∈ vs, headerValueIsValid v = true)
    (hfresh : k ∉ acc.map Prod.fst) :
    stepHR ⟨acc⟩ k (toSeqSerialize true vs) =
      Except.ok ⟨acc ++ hrFilterEntries [(k, vs)]⟩ := by
  have hfiltval : ∀ v ∈ vs.filter headerValueIsVisible, headerValueIsValid v = true :=
    fun v hv => hval v (List.mem_of_mem_filter hv)
  have hseq : stepHR ⟨acc⟩ k (SValue.seq ((vs.filter headerValueIsVisible).map SValue.str)) =
      Except.ok ⟨acc ++ hrFilterEntries [(k, vs)]⟩ := by
    simp only [stepHR, oneOrMoreDeserialize_strs,
      headerNameFromBytes_of_canonical k hcanon]
    rw [appendValues_ok _ _ _ _ hfiltval]
    cases hf : vs.filter headerValueIsVisible with
    | nil =>
      rw [show hrFilterEntries [(k, vs)] = [] by simp [hrFilterEntries, hf]]
      simp [HeaderMap.appendAll]
    | cons w ws =>
      rw [appendAll_fresh acc k w ws hfresh]
      rw [show hrFilterEntries [(k, vs)] = [(k, w :: ws)] by
        simp [hrFilterEntries, hf]]
  match vs, hne with
  | [v], _ =>
    by_cases hv : headerValueIsVisible v = true
    · have henc : toSeqSerialize true [v] = SValue.str v := by
        simp [toSeqSerialize, hv]
      rw [henc]
      have h1 : oneOrMoreDeserialize (SValue.str v) = Except.ok (OneOrMore.one v) := rfl
      simp only [stepHR, h1, headerNameFromBytes_of_canonical k hcanon]
      rw [if_pos (hval v (List.mem_cons_self v []))]
      rw [show HeaderMap.insert ⟨acc⟩ k v = ⟨acc ++ [(k, [v])]⟩ by
        simp [HeaderMap.insert, insertEntry_fresh acc k v hfresh]]
      rw [show hrFilterEntries [(k, [v])] = [(k, [v])] by
        simp [hrFilterEntries, List.filter, hv]]
    · have henc : toSeqSerialize true [v] =
          SValue.seq (([v].filter headerValueIsVisible).map SValue.str) := by
        simp [toSeqSerialize, hv]
      rw [henc]
      exact hseq
  | v1 :: v2 :: vs', _ =>
    have henc : toSeqSerialize true (v1 :: v2 :: vs') =
        SValue.seq (((v1 :: v2 :: vs').filter headerValueIsVisible).map SValue.str) := by
      simp [toSeqSerialize]
    rw [henc]
    exact hseq

theorem hrFilterEntries_cons (e : Bytes × List Bytes) (es : List (Bytes × List Bytes)) :
    hrFilterEntries (e :: es) = hrFilterEntries [e] ++ hrFilterEntries es := by
  by_cases h : (e.2.filter headerValueIsVisible).isEmpty <;>
    simp [hrFilterEntries, h]

theorem hrFilterEntries_single_names (e : Bytes × List Bytes) :
    (hrFilterEntries [e]).map Prod.fst = [] ∨ (hrFilterEntries [e]).map Prod.fst = [e.1] := by
  by_cases h : (e.2.filter headerValueIsVisible).isEmpty
  · left; simp [hrFilterEntries, h]
  · right; simp [hrFilterEntries, h]

theorem visitLoop_stepBinary_encode (es : List (Bytes × List Bytes)) :
    ∀ acc : List (Bytes × List Bytes),
    (es.map Prod.fst).Nodup →
    (∀ k ∈ es.map Prod.fst, k ∉ acc.map Prod.fst) →
    (∀ e ∈ es, nameCanonical e.1 = true ∧ e.2 ≠ [] ∧
      ∀ v ∈ e.2, headerValueIsValid v = true) →
    visitLoop stepBinary ⟨acc⟩ (es.map (fun e => (e.1, toSeqSerialize false e.2))) =
      Except.ok ⟨acc ++ es⟩ := by
  induction es with
  | nil => intro acc _ _ _; simp [visitLoop]
  | cons e rest ih =>
    intro acc hnodup hdisj hwf
    obtain ⟨k, vs⟩ := e
    obtain ⟨hcanon, hne, hval⟩ := hwf (k, vs) (List.mem_cons_self _ _)
    simp only [List.map_cons, List.nodup_cons] at hnodup hdisj ⊢
    have hstep := stepBinary_encode acc k vs hcanon hne hval
      (hdisj k (List.mem_cons_self _ _))
    simp only [visitLoop, hstep]
    rw [ih (acc ++ [(k, vs)]) hnodup.2
      (fun k' hk' => by
        simp only [List.map_append, List.mem_append, List.map_cons, List.map_nil,
          List.mem_singleton]
        push_neg
        exact ⟨hdisj k' (List.mem_cons_of_mem _ hk'),
          fun he => hnodup.1 (he ▸ hk')⟩)
      (fun e' he' => hwf e' (List.mem_cons_of_mem _ he'))]
    simp

theorem visitLoop_stepHR_encode (es : List (Bytes × List Bytes)) :
    ∀ acc : List (Bytes × List Bytes),
    (es.map Prod.fst).Nodup →
    (∀ k ∈ es.map Prod.fst, k ∉ acc.map Prod.fst) →
    (∀ e ∈ es, nameCanonical e.1 = true ∧ e.2 ≠ [] ∧
      ∀ v ∈ e.2, headerValueIsValid v = true) →
    visitLoop stepHR ⟨acc⟩ (es.map (fun e => (e.1, toSeqSerialize true e.2))) =
      Except.ok ⟨acc ++ hrFilterEntries es⟩ := by
  induction es with
  | nil => intro acc _ _ _; simp [visitLoop, hrFilterEntries]
  | cons e rest ih =>
    intro acc hnodup hdisj hwf
    obtain ⟨k, vs⟩ := e
    obtain ⟨hcanon, hne, hval⟩ := hwf (k, vs) (List.mem_cons_self _ _)
    simp only [List.map_cons, List.nodup_cons] at hnodup hdisj ⊢
    have hstep := stepHR_encode acc k vs hcanon hne hval
      (hdisj k (List.mem_cons_self _ _))
    simp only [visitLoop, hstep]
    rw [ih (acc ++ hrFilterEntries [(k, vs)]) hnodup.2
      (fun k' hk' => by
        simp only [List.map_append, List.mem_append]
        push_neg
        refine ⟨hdisj k' (List.mem_cons_of_mem _ hk'), ?_⟩
        rcases hrFilterEntries_single_names (k, vs) with hn | hn <;> rw [hn]
        · simp
        · simp only [List.mem_singleton]
          exact fun he => hnodup.1 (he ▸ hk'))
      (fun e' he' => hwf e' (List.mem_cons_of_mem _ he'))]
    rw [hrFilterEntries_cons (k, vs) rest]
    simp

/-- Same-format round trip: binary decode recovers the map exactly;
human-readable decode recovers the text-filtered map. -/
theorem roundtrip_lemma (hr : Bool) (hint : Option Nat) (m : HeaderMap)
    (h : m.WF) :
    headerMapDeserialize hr hint (headerMapSerialize hr m) =
      Except.ok (roundTripExpected hr m) := by
  obtain ⟨hnodup, hwf⟩ := h
  have henc : headerMapSerialize hr m =
      SValue.map (m.entries.map (fun e => (e.1, toSeqSerialize hr e.2))) := by
    unfold headerMapSerialize HeaderMap.keys HeaderMap.getAll
    rw [keys_getAll_map (toSeqSerialize hr) m.entries hnodup]
  rw [henc]
  show headerMapVisitMap hr hint _ = _
  unfold headerMapVisitMap HeaderMap.withCapacity
  cases hr with
  | false =>
    simp only [Bool.false_eq_true, if_false, roundTripExpected]
    rw [visitLoop_stepBinary_encode m.entries [] hnodup (by simp) hwf]
    simp
  | true =>
    simp only [if_true, roundTripExpected]
    rw [visitLoop_stepHR_encode m.entries [] hnodup (by simp) hwf]
    simp

/-! ### Error-path lemmas -/

theorem mapM_asBytesElem (bs : List Bytes) :
    (bs.map SValue.bytes).mapM asBytesElem = Option.some bs := by
  induction bs with
  | nil => rfl
  | cons b rest ih =>
    simp only [List.map_cons, List.mapM_cons, ih]
    rfl

theorem mapM_asStrElem_bytes (b : Bytes) (bs : List Bytes) :
    ((b :: bs).map SValue.bytes).mapM asStrElem = Option.none := by
  simp only [List.map_cons, List.mapM_cons]
  rfl

theorem oneOrMoreDeserialize_bytes (b : Bytes) (bs : List Bytes) :
    oneOrMoreDeserialize (SValue.seq ((b :: bs).map SValue.bytes)) =
      Except.ok (OneOrMore.bytesArr (b :: bs)) := by
  show (match ((b :: bs).map SValue.bytes).mapM asStrElem with
    | Option.some l2 => Except.ok (OneOrMore.strings l2)
    | Option.none =>
      match ((b :: bs).map SValue.bytes).mapM asBytesElem with
      | Option.some l2 => Except.ok (OneOrMore.bytesArr l2)
      | Option.none => Except.error DeError.untaggedNoMatch) =
    Except.ok (OneOrMore.bytesArr (b :: bs))
  rw [mapM_asStrElem_bytes, mapM_asBytesElem]

theorem appendValues_err (mk : Bytes → Unexpected) (m : HeaderMap) (k : Bytes)
    (vs : List Bytes) (h : ∃ v ∈ vs, headerValueIsValid v = false) :
    ∃ u, appendValues mk m k vs = Except.error (DeError.invalidValue u) := by
  induction vs generalizing m with
  | nil => rcases h with ⟨v, hv, _⟩; cases hv
  | cons v rest ih =>
    by_cases hv : headerValueIsValid v = true
    · have hrest : ∃ w ∈ rest, headerValueIsValid w = false := by
        rcases h with ⟨w, hw, hbad⟩
        rcases List.mem_cons.mp hw with rfl | htail
        · rw [hv] at hbad; cases hbad
        · exact ⟨w, htail, hbad⟩
      obtain ⟨u, hu⟩ := ih (m.append k v) hrest
      exact ⟨u, by simp only [appendValues, if_pos hv]; exact hu⟩
    · exact ⟨mk v, by
        simp only [appendValues, if_neg hv]⟩

theorem oneOrMoreDeserialize_nil :
    oneOrMoreDeserialize (SValue.seq []) = Except.ok (OneOrMore.strings []) :=
  rfl

theorem statusVisitU16_eq (n : Nat) :
    statusVisitU16 n =
      (if 100 ≤ n ∧ n < 1000 then Except.ok n
       else Except.error (DeError.invalidValue (Unexpected.unsigned n))) := by
  unfold statusVisitU16
  by_cases h : 100 ≤ n ∧ n < 1000
  · rw [if_neg (by omega), if_pos h]
  · rw [if_pos (by omega), if_neg h]

/-! ### Step characterization (decode failure propagation) -/

theorem carriedValues_binary (v : SValue) (arr : List Bytes)
    (h : decodeVecBytes v = Except.ok arr) : carriedValues false v = arr := by
  show (match decodeVecBytes v with
    | Except.ok l => l
    | Except.error _ => []) = arr
  rw [h]

theorem carriedValues_hr (v : SValue) (oom : OneOrMore)
    (h : oneOrMoreDeserialize v = Except.ok oom) :
    carriedValues true v = oneOrMoreValues oom := by
  show (match oneOrMoreDeserialize v with
    | Except.ok (OneOrMore.one s) => [s]
    | Except.ok (OneOrMore.strings l) => l
    | Except.ok (OneOrMore.bytesArr l) => l
    | Except.error _ => []) = _
  rw [h]
  cases oom <;> rfl

theorem all_valid_of_any_invalid_false (l : List Bytes)
    (h : (l.any (fun w => !headerValueIsValid w)) = false) :
    ∀ w ∈ l, headerValueIsValid w = true := by
  intro w hw
  by_contra hbad
  have hany : l.any (fun w => !headerValueIsValid w) = true :=
    List.any_eq_true.mpr ⟨w, hw, by simpa using hbad⟩
  rw [h] at hany
  cases hany

theorem exists_invalid_of_any_invalid (l : List Bytes)
    (h : (l.any (fun w => !headerValueIsValid w)) = true) :
    ∃ w ∈ l, headerValueIsValid w = false := by
  obtain ⟨w, hw, hbad⟩ := List.any_eq_true.mp h
  exact ⟨w, hw, by simpa using hbad⟩

theorem stepBinary_ok_of_not_malformed (m : HeaderMap) (key : Bytes) (v : SValue)
    (hshape : entryWellShaped false v = true)
    (hgood : entryMalformed false (key, v) = false) :
    ∃ m', stepBinary m key v = Except.ok m' := by
  have hshape' : exceptOk (decodeVecBytes v) = true := hshape
  obtain ⟨arr, harr⟩ : ∃ arr, decodeVecBytes v = Except.ok arr := by
    cases hd : decodeVecBytes v with
    | ok arr => exact ⟨arr, rfl⟩
    | error e => rw [hd] at hshape'; cases hshape'
  have hgood' : ((headerNameFromBytes key).isNone ||
      (carriedValues false v).any (fun w => !headerValueIsValid w)) = false := hgood
  rw [carriedValues_binary v arr harr] at hgood'
  rcases Bool.or_eq_false_iff.mp hgood' with ⟨hk, hvals⟩
  obtain ⟨k, hk'⟩ : ∃ k, headerNameFromBytes key = Option.some k := by
    cases ho : headerNameFromBytes key with
    | none => rw [ho] at hk; cases hk
    | some k => exact ⟨k, rfl⟩
  refine ⟨m.appendAll k arr, ?_⟩
  simp only [stepBinary, harr, hk']
  exact appendValues_ok _ m k arr (all_valid_of_any_invalid_false arr hvals)

theorem stepBinary_err_of_malformed (m : HeaderMap) (key : Bytes) (v : SValue)
    (hshape : entryWellShaped false v = true)
    (hbad : entryMalformed false (key, v) = true) :
    ∃ u, stepBinary m key v = Except.error (DeError.invalidValue u) := by
  have hshape' : exceptOk (decodeVecBytes v) = true := hshape
  obtain ⟨arr, harr⟩ : ∃ arr, decodeVecBytes v = Except.ok arr := by
    cases hd : decodeVecBytes v with
    | ok arr => exact ⟨arr, rfl⟩
    | error e => rw [hd] at hshape'; cases hshape'
  have hbad' : ((headerNameFromBytes key).isNone ||
      (carriedValues false v).any (fun w => !headerValueIsValid w)) = true := hbad
  rw [carriedValues_binary v arr harr] at hbad'
  cases ho : headerNameFromBytes key with
  | none =>
    exact ⟨Unexpected.ustr key, by simp only [stepBinary, harr, ho]⟩
  | some k =>
    rw [ho] at hbad'
    simp only [Option.isNone_some, Bool.false_or] at hbad'
    obtain ⟨u, hu⟩ := appendValues_err Unexpected.ubytes m k arr
      (exists_invalid_of_any_invalid arr hbad')
    exact ⟨u, by simp only [stepBinary, harr, ho]; exact hu⟩

theorem stepHR_ok_of_not_malformed (m : HeaderMap) (key : Bytes) (v : SValue)
    (hshape : entryWellShaped true v = true)
    (hgood : entryMalformed true (key, v) = false) :
    ∃ m', stepHR m key v = Except.ok m' := by
  have hshape' : exceptOk (oneOrMoreDeserialize v) = true := hshape
  obtain ⟨oom, hoom⟩ : ∃ oom, oneOrMoreDeserialize v = Except.ok oom := by
    cases hd : oneOrMoreDeserialize v with
    | ok oom => exact ⟨oom, rfl⟩
    | error e => rw [hd] at hshape'; cases hshape'
  have hgood' : ((headerNameFromBytes key).isNone ||
      (carriedValues true v).any (fun w => !headerValueIsValid w)) = false := hgood
  rw [carriedValues_hr v oom hoom] at hgood'
  rcases Bool.or_eq_false_iff.mp hgood' with ⟨hk, hvals⟩
  obtain ⟨k, hk'⟩ : ∃ k, headerNameFromBytes key = Option.some k := by
    cases ho : headerNameFromBytes key with
    | none => rw [ho] at hk; cases hk
    | some k => exact ⟨k, rfl⟩
  cases oom with
  | one s =>
    refine ⟨m.insert k s, ?_⟩
    simp only [stepHR, hoom, hk']
    rw [if_pos (all_valid_of_any_invalid_false [s] hvals s (List.mem_cons_self s []))]
  | strings arr =>
    refine ⟨m.appendAll k arr, ?_⟩
    simp only [stepHR, hoom, hk']
    exact appendValues_ok _ m k arr (all_valid_of_any_invalid_false arr hvals)
  | bytesArr arr =>
    refine ⟨m.appendAll k arr, ?_⟩
    simp only [stepHR, hoom, hk']
    exact appendValues_ok _ m k arr (all_valid_of_any_invalid_false arr hvals)

theorem stepHR_err_of_malformed (m : HeaderMap) (key : Bytes) (v : SValue)
    (hshape : entryWellShaped true v = true)
    (hbad : entryMalformed true (key, v) = true) :
    ∃ u, stepHR m key v = Except.error (DeError.invalidValue u) := by
  have hshape' : exceptOk (oneOrMoreDeserialize v) = true := hshape
  obtain ⟨oom, hoom⟩ : ∃ oom, oneOrMoreDeserialize v = Except.ok oom := by
    cases hd : oneOrMoreDeserialize v with
    | ok oom => exact ⟨oom, rfl⟩
    | error e => rw [hd] at hshape'; cases hshape'
  have hbad' : ((headerNameFromBytes key).isNone ||
      (carriedValues true v).any (fun w => !headerValueIsValid w)) = true := hbad
  rw [carriedValues_hr v oom hoom] at hbad'
  cases ho : headerNameFromBytes key with
  | none =>
    exact ⟨Unexpected.ustr key, by simp only [stepHR, hoom, ho]⟩
  | some k =>
    rw [ho] at hbad'
    simp only [Option.isNone_some, Bool.false_or] at hbad'
    cases oom with
    | one s =>
      obtain ⟨w, hw, hbadw⟩ := exists_invalid_of_any_invalid [s] hbad'
      have hws : w = s := by simpa using hw
      subst hws
      refine ⟨Unexpected.ustr w, ?_⟩
      simp only [stepHR, hoom, ho]
      rw [if_neg (by rw [hbadw]; exact Bool.false_ne_true)]
    | strings arr =>
      obtain ⟨u, hu⟩ := appendValues_err Unexpected.ustr m k arr
        (exists_invalid_of_any_invalid arr hbad')
      exact ⟨u, by simp only [stepHR, hoom, ho]; exact hu⟩
    | bytesArr arr =>
      obtain ⟨u, hu⟩ := appendValues_err Unexpected.ubytes m k arr
        (exists_invalid_of_any_invalid arr hbad')
      exact ⟨u, by simp only [stepHR, hoom, ho]; exact hu⟩

theorem visitLoop_err_of_malformed
    (step : HeaderMap → Bytes → SValue → Except DeError HeaderMap) (hr : Bool)
    (hok : ∀ m key v, entryWellShaped hr v = true →
      entryMalformed hr (key, v) = false → ∃ m', step m key v = Except.ok m')
    (herr : ∀ m key v, entryWellShaped hr v = true →
      entryMalformed hr (key, v) = true →
      ∃ u, step m key v = Except.error (DeError.invalidValue u)) :
    ∀ (es : List (Bytes × SValue)) (m : HeaderMap),
      (∀ e ∈ es, entryWellShaped hr e.2 = true) →
      (∃ e ∈ es, entryMalformed hr e = true) →
      ∃ u, visitLoop step m es = Except.error (DeError.invalidValue u) := by
  intro es
  induction es with
  | nil =>
    intro m _ hbad
    rcases hbad with ⟨e, he, _⟩
    cases he
  | cons e rest ih =>
    intro m hshape hbad
    obtain ⟨key, v⟩ := e
    by_cases hm : entryMalformed hr (key, v) = true
    · obtain ⟨u, hu⟩ := herr m key v (hshape (key, v) (List.mem_cons_self _ _)) hm
      exact ⟨u, by simp only [visitLoop, hu]⟩
    · obtain ⟨m', hm'⟩ := hok m key v (hshape (key, v) (List.mem_cons_self _ _))
        (by simpa using hm)
      rcases hbad with ⟨e', he', hbe'⟩
      rcases List.mem_cons.mp he' with rfl | htail
      · exact absurd hbe' hm
      · obtain ⟨u, hu⟩ := ih m'
          (fun x hx => hshape x (List.mem_cons_of_mem _ hx)) ⟨e', htail, hbe'⟩
        exact ⟨u, by simp only [visitLoop, hm', hu]⟩

/-! ### Claim theorems -/

/-- C1: for every well-formed header collection, encoding with
`header_map::serialize` and decoding the result with
`header_map::deserialize` under the same human-readable flag (and any
entry-count hint) succeeds and yields a collection with identical
(name, ordered value-list) pairs for every distinct case-insensitive name,
modulo encode's best-effort text fallback: on the human-readable path the
values that fail text conversion are omitted (and a name left with no
values disappears); the binary path is exact. -/
theorem headerMap_same_format_roundtrip (hr : Bool) (hint : Option Nat)
    (m : HeaderMap) (h : m.WF) :
    headerMapDeserialize hr hint (headerMapSerialize hr m) =
      Except.ok (roundTripExpected hr m) :=
  roundtrip_lemma hr hint m h

/-- C1 witness: a collection with repeated names, mixed single/multi-valued
entries and a non-text value round-trips in both formats. -/
theorem headerMap_same_format_roundtrip_witness :
    HeaderMap.WF ⟨[([104], [[104, 111]]), ([102], [[98], [99]]), ([120], [[200]])]⟩ ∧
    headerMapDeserialize true (Option.some 3) (headerMapSerialize true
        ⟨[([104], [[104, 111]]), ([102], [[98], [99]]), ([120], [[200]])]⟩) =
      Except.ok (roundTripExpected true
        ⟨[([104], [[104, 111]]), ([102], [[98], [99]]), ([120], [[200]])]⟩) ∧
    headerMapDeserialize false Option.none (headerMapSerialize false
        ⟨[([104], [[104, 111]]), ([102], [[98], [99]]), ([120], [[200]])]⟩) =
      Except.ok (roundTripExpected false
        ⟨[([104], [[104, 111]]), ([102], [[98], [99]]), ([120], [[200]])]⟩) := by
  refine ⟨by decide, ?_, ?_⟩
  · exact headerMap_same_format_roundtrip true (Option.some 3) _ (by decide)
  · exact headerMap_same_format_roundtrip false Option.none _ (by decide)

/-- C2 (code bug): the `option` lifter's encode half behaves as specified
(`Some` delegates, `None` emits the absence marker), but on decode
`OptionVisitor` overrides neither `visit_none` nor `visit_some`, so the
serde default `Visitor` methods reject with an invalid-type error: decoding
the absence marker fails instead of yielding `None`, and decoding the
present integer `200` through the optional status-code adapter fails
instead of yielding `Some(200)`. -/
theorem optionStatusCode_decode_always_fails :
    optionStatusCodeDeserialize SValue.none =
      Except.error (DeError.invalidType Unexpected.option) ∧
    optionStatusCodeDeserialize (SValue.int 200) =
      Except.error (DeError.invalidType Unexpected.option) ∧
    optionStatusCodeSerialize (Option.some 200) = SValue.int 200 ∧
    optionStatusCodeSerialize Option.none = SValue.none :=
  ⟨rfl, rfl, rfl, rfl⟩

/-- C3: for every integer input (signed or unsigned, any width up to 64
bits, within its type's range), the status visitor narrows the value to 16
bits and succeeds exactly when the narrowed value is in 100..999, returning
it, and otherwise fails with an invalid-value error carrying the narrowed
number; in particular 0, 99 and 1000 are rejected and all of 100..999 are
accepted. -/
theorem statusCode_narrowing (iv : IntInput) (h : iv.WF) :
    (statusVisit iv =
      (if 100 ≤ iv.toU16 ∧ iv.toU16 < 1000 then Except.ok iv.toU16
       else Except.error (DeError.invalidValue (Unexpected.unsigned iv.toU16)))) ∧
    statusVisit (IntInput.u16 0) =
      Except.error (DeError.invalidValue (Unexpected.unsigned 0)) ∧
    statusVisit (IntInput.u16 99) =
      Except.error (DeError.invalidValue (Unexpected.unsigned 99)) ∧
    statusVisit (IntInput.u16 1000) =
      Except.error (DeError.invalidValue (Unexpected.unsigned 1000)) ∧
    ∀ n, 100 ≤ n → n < 1000 → statusVisit (IntInput.u16 n) = Except.ok n := by
  refine ⟨?_, rfl, rfl, rfl, ?_⟩
  · cases iv with
    | i16 v => exact statusVisitU16_eq (rustAsU16 v)
    | i32 v => exact statusVisitU16_eq (rustAsU16 v)
    | i64 v => exact statusVisitU16_eq (rustAsU16 v)
    | u8 v =>
      have heq : IntInput.toU16 (IntInput.u8 v) = v := by
        show ((v : Int) % 65536).toNat = v
        unfold IntInput.WF at h
        omega
      rw [heq]
      exact statusVisitU16_eq v
    | u16 v =>
      have heq : IntInput.toU16 (IntInput.u16 v) = v := by
        show ((v : Int) % 65536).toNat = v
        unfold IntInput.WF at h
        omega
      rw [heq]
      exact statusVisitU16_eq v
    | u32 v =>
      have heq : IntInput.toU16 (IntInput.u32 v) = v % 65536 := by
        show ((v : Int) % 65536).toNat = v % 65536
        omega
      rw [heq]
      exact statusVisitU16_eq (v % 65536)
    | u64 v =>
      have heq : IntInput.toU16 (IntInput.u64 v) = v % 65536 := by
        show ((v : Int) % 65536).toNat = v % 65536
        omega
      rw [heq]
      exact statusVisitU16_eq (v % 65536)
  · intro n h1 h2
    show statusVisitU16 n = Except.ok n
    rw [statusVisitU16_eq, if_pos ⟨h1, h2⟩]

/-- C3 witness: the 64-bit signed input -64836 narrows to 700 (two's
complement) and is accepted. -/
theorem statusCode_narrowing_witness :
    IntInput.WF (IntInput.i64 (-64836)) ∧
    statusVisit (IntInput.i64 (-64836)) = Except.ok 700 := by
  refine ⟨by decide, ?_⟩
  have h := (statusCode_narrowing (IntInput.i64 (-64836)) (by decide)).1
  rw [h]
  rfl

/-- C4: human-readable encoding maps each distinct name to a bare string
when it has exactly one value with a text form, and otherwise to the
sequence of the text forms of its values in original order, values without
a text form omitted rather than failing. -/
theorem headerMap_hr_encode_shape (m : HeaderMap) (h : m.WF) :
    headerMapSerialize true m = SValue.map (m.entries.map (fun e =>
      (e.1, match e.2 with
        | [v] =>
          if headerValueIsVisible v then SValue.str v
          else SValue.seq ((e.2.filter headerValueIsVisible).map SValue.str)
        | _ => SValue.seq ((e.2.filter headerValueIsVisible).map SValue.str)))) := by
  unfold headerMapSerialize HeaderMap.keys HeaderMap.getAll
  rw [keys_getAll_map (toSeqSerialize true) m.entries h.1]
  congr 1

/-- C4 witness: one single-valued text name, one single-valued non-text name
(encoded as an empty sequence), one multi-valued name with a non-text value
omitted. -/
theorem headerMap_hr_encode_shape_witness :
    HeaderMap.WF ⟨[([104], [[104, 111]]), ([120], [[200]]),
      ([109], [[97], [200], [98]])]⟩ ∧
    headerMapSerialize true
        ⟨[([104], [[104, 111]]), ([120], [[200]]), ([109], [[97], [200], [98]])]⟩ =
      SValue.map [([104], SValue.str [104, 111]), ([120], SValue.seq []),
        ([109], SValue.seq [SValue.str [97], SValue.str [98]])] := by
  refine ⟨by decide, ?_⟩
  exact (headerMap_hr_encode_shape
    ⟨[([104], [[104, 111]]), ([120], [[200]]), ([109], [[97], [200], [98]])]⟩
    (by decide)).trans rfl

/-- C5: binary encoding maps every distinct name — single-valued ones
included — to the sequence of its raw values as byte arrays in original
order, and binary decode recovers the whole collection exactly. -/
theorem headerMap_binary_encode_shape_roundtrip (hint : Option Nat)
    (m : HeaderMap) (h : m.WF) :
    headerMapSerialize false m = SValue.map (m.entries.map (fun e =>
      (e.1, SValue.seq (e.2.map SValue.bytes)))) ∧
    headerMapDeserialize false hint (headerMapSerialize false m) =
      Except.ok m := by
  constructor
  · unfold headerMapSerialize HeaderMap.keys HeaderMap.getAll
    rw [keys_getAll_map (toSeqSerialize false) m.entries h.1]
    congr 1
  · exact (roundtrip_lemma false hint m h).trans rfl

/-- C5 witness: a collection with a single-valued name and a name holding a
non-text value uses the sequence-of-byte-arrays shape and round-trips. -/
theorem headerMap_binary_encode_shape_roundtrip_witness :
    HeaderMap.WF ⟨[([104], [[104, 111]]), ([109], [[200], [98]])]⟩ ∧
    headerMapSerialize false ⟨[([104], [[104, 111]]), ([109], [[200], [98]])]⟩ =
      SValue.map [([104], SValue.seq [SValue.bytes [104, 111]]),
        ([109], SValue.seq [SValue.bytes [200], SValue.bytes [98]])] ∧
    headerMapDeserialize false (Option.some 2)
        (headerMapSerialize false ⟨[([104], [[104, 111]]), ([109], [[200], [98]])]⟩) =
      Except.ok ⟨[([104], [[104, 111]]), ([109], [[200], [98]])]⟩ := by
  refine ⟨by decide, ?_, ?_⟩
  · exact (headerMap_binary_encode_shape_roundtrip (Option.some 2)
      ⟨[([104], [[104, 111]]), ([109], [[200], [98]])]⟩ (by decide)).1.trans rfl
  · exact (headerMap_binary_encode_shape_roundtrip (Option.some 2)
      ⟨[([104], [[104, 111]]), ([109], [[200], [98]])]⟩ (by decide)).2

/-- C6: in human-readable mode the decoder accepts, for a map entry, a
single string (parsed and inserted as the name's sole value), a sequence of
strings (each parsed and appended in order), or a sequence of byte arrays
(each constructed from bytes and appended in order). -/
theorem headerMap_hr_three_value_shapes (hint : Option Nat) (k s : Bytes)
    (ss bs : List Bytes) (hk : nameCanonical k = true)
    (hs : headerValueIsValid s = true)
    (hss : ∀ v ∈ ss, headerValueIsValid v = true)
    (hbs : ∀ v ∈ bs, headerValueIsValid v = true) :
    headerMapDeserialize true hint (SValue.map [(k, SValue.str s)]) =
      Except.ok ⟨[(k, [s])]⟩ ∧
    headerMapDeserialize true hint
        (SValue.map [(k, SValue.seq (ss.map SValue.str))]) =
      Except.ok ⟨if ss.isEmpty then [] else [(k, ss)]⟩ ∧
    headerMapDeserialize true hint
        (SValue.map [(k, SValue.seq (bs.map SValue.bytes))]) =
      Except.ok ⟨if bs.isEmpty then [] else [(k, bs)]⟩ := by
  have hk' := headerNameFromBytes_of_canonical k hk
  refine ⟨?_, ?_, ?_⟩
  · show visitLoop stepHR ⟨[]⟩ [(k, SValue.str s)] = _
    have hstep : stepHR ⟨[]⟩ k (SValue.str s) = Except.ok ⟨[(k, [s])]⟩ := by
      simp only [stepHR, oneOrMoreDeserialize, hk', if_pos hs]
      rfl
    simp only [visitLoop, hstep]
  · show visitLoop stepHR ⟨[]⟩ [(k, SValue.seq (ss.map SValue.str))] = _
    have hstep : stepHR ⟨[]⟩ k (SValue.seq (ss.map SValue.str)) =
        Except.ok (HeaderMap.appendAll ⟨[]⟩ k ss) := by
      simp only [stepHR, oneOrMoreDeserialize_strs, hk']
      exact appendValues_ok _ _ _ _ hss
    simp only [visitLoop, hstep]
    cases ss with
    | nil => rfl
    | cons w ws =>
      rw [appendAll_fresh [] k w ws (by simp)]
      rfl
  · show visitLoop stepHR ⟨[]⟩ [(k, SValue.seq (bs.map SValue.bytes))] = _
    cases bs with
    | nil =>
      have hstep : stepHR ⟨[]⟩ k (SValue.seq []) = Except.ok ⟨[]⟩ := by
        simp only [stepHR, oneOrMoreDeserialize_nil, hk']
        rfl
      simp only [List.map_nil, visitLoop, hstep]
      rfl
    | cons b bs' =>
      have hstep : stepHR ⟨[]⟩ k (SValue.seq ((b :: bs').map SValue.bytes)) =
          Except.ok (HeaderMap.appendAll ⟨[]⟩ k (b :: bs')) := by
        simp only [stepHR, oneOrMoreDeserialize_bytes, hk']
        exact appendValues_ok _ _ _ _ hbs
      simp only [visitLoop, hstep]
      rw [appendAll_fresh [] k b bs' (by simp)]
      rfl

/-- C6 witness: the three accepted value shapes on a concrete entry. -/
theorem headerMap_hr_three_value_shapes_witness :
    nameCanonical [107] = true ∧
    headerMapDeserialize true Option.none
        (SValue.map [([107], SValue.str [97])]) =
      Except.ok ⟨[([107], [[97]])]⟩ ∧
    headerMapDeserialize true Option.none
        (SValue.map [([107], SValue.seq [SValue.str [98], SValue.str [99]])]) =
      Except.ok ⟨[([107], [[98], [99]])]⟩ ∧
    headerMapDeserialize true Option.none
        (SValue.map [([107], SValue.seq [SValue.bytes [200]])]) =
      Except.ok ⟨[([107], [[200]])]⟩ := by
  have h := headerMap_hr_three_value_shapes Option.none [107] [97]
    [[98], [99]] [[200]] (by decide) (by decide) (by decide) (by decide)
  exact ⟨by decide, h.1, h.2.1, h.2.2⟩

/-- C7: in either format mode, an input containing a well-shaped entry whose
key fails header-name validation or one of whose values fails header-value
validation makes the whole decode return an invalid-value error — no
malformed entry is dropped and no partially populated collection is
returned. -/
theorem headerMap_decode_rejects_malformed (hr : Bool) (hint : Option Nat)
    (es : List (Bytes × SValue))
    (hshape : ∀ e ∈ es, entryWellShaped hr e.2 = true)
    (hbad : ∃ e ∈ es, entryMalformed hr e = true) :
    ∃ u, headerMapDeserialize hr hint (SValue.map es) =
      Except.error (DeError.invalidValue u) := by
  cases hr with
  | true =>
    obtain ⟨u, hu⟩ := visitLoop_err_of_malformed stepHR true
      stepHR_ok_of_not_malformed stepHR_err_of_malformed es ⟨[]⟩ hshape hbad
    exact ⟨u, hu⟩
  | false =>
    obtain ⟨u, hu⟩ := visitLoop_err_of_malformed stepBinary false
      stepBinary_ok_of_not_malformed stepBinary_err_of_malformed es ⟨[]⟩ hshape hbad
    exact ⟨u, hu⟩

/-- C7 witness: the key `bad h` (containing a space, byte 32) makes a
human-readable decode fail with an invalid-value error. -/
theorem headerMap_decode_rejects_malformed_witness :
    (∀ e ∈ [(([98, 97, 100, 32, 104] : Bytes), SValue.str [118])],
      entryWellShaped true e.2 = true) ∧
    (∃ e ∈ [(([98, 97, 100, 32, 104] : Bytes), SValue.str [118])],
      entryMalformed true e = true) ∧
    ∃ u, headerMapDeserialize true Option.none
        (SValue.map [([98, 97, 100, 32, 104], SValue.str [118])]) =
      Except.error (DeError.invalidValue u) := by
  refine ⟨by decide, by decide, ?_⟩
  exact headerMap_decode_rejects_malformed true Option.none _ (by decide) (by decide)

/-- C8 (spec-modelled, the `authority` / `version` module sources are not
among the provided files): both adapters encode a value as its canonical
string form and decode a string by the external parse, succeeding exactly on
strings the grammar accepts and failing with an invalid-value error on
malformed or unrecognized input. -/
theorem authority_version_string_adapters {α : Type} (toCanonical : α → Bytes)
    (parse : Bytes → Option α) :
    (∀ v, authoritySerialize toCanonical v = SValue.str (toCanonical v)) ∧
    (∀ v, versionSerialize toCanonical v = SValue.str (toCanonical v)) ∧
    (∀ s a, parse s = Option.some a →
      authorityDeserialize parse (SValue.str s) = Except.ok a ∧
      versionDeserialize parse (SValue.str s) = Except.ok a) ∧
    (∀ s, parse s = Option.none →
      authorityDeserialize parse (SValue.str s) =
        Except.error (DeError.invalidValue (Unexpected.ustr s)) ∧
      versionDeserialize parse (SValue.str s) =
        Except.error (DeError.invalidValue (Unexpected.ustr s))) := by
  refine ⟨fun v => rfl, fun v => rfl, fun s a hp => ?_, fun s hp => ?_⟩
  · constructor <;>
      simp only [authorityDeserialize, versionDeserialize,
        stringValueDeserialize, hp]
  · constructor <;>
      simp only [authorityDeserialize, versionDeserialize,
        stringValueDeserialize, hp]

/-- C8 witness: a toy grammar accepting exactly one string decodes it and
rejects another. -/
theorem authority_version_string_adapters_witness :
    (fun s => if s = [72, 50] then Option.some 2 else Option.none) [72, 50] =
      Option.some 2 ∧
    versionDeserialize
        (fun s => if s = [72, 50] then Option.some 2 else Option.none)
        (SValue.str [72, 50]) = Except.ok 2 ∧
    authorityDeserialize
        (fun s => if s = [72, 50] then Option.some 2 else Option.none)
        (SValue.str [72, 51]) =
      Except.error (DeError.invalidValue (Unexpected.ustr [72, 51])) := by
  refine ⟨by decide, ?_, ?_⟩
  · exact ((authority_version_string_adapters (fun n => [72, n])
      (fun s => if s = [72, 50] then Option.some 2 else Option.none)).2.2.1
      [72, 50] 2 (by decide)).2
  · exact ((authority_version_string_adapters (fun n => [72, n])
      (fun s => if s = [72, 50] then Option.some 2 else Option.none)).2.2.2
      [72, 51] (by decide)).1

/-- C9: the entry-count size hint reported by the format never affects the
result of `header_map::deserialize` — it feeds only the pre-allocated
capacity, which has no observable effect on the decoded collection. -/
theorem headerMap_decode_hint_irrelevant (hr : Bool) (h1 h2 : Option Nat)
    (v : SValue) :
    headerMapDeserialize hr h1 v = headerMapDeserialize hr h2 v := by
  cases v <;> rfl

/-- C10: in human-readable mode, repeated (case-insensitively equal) keys
are treated asymmetrically: a later single-string entry replaces everything
previously accumulated for the name (`insert`), while a later
sequence-of-strings or sequence-of-byte-arrays entry appends its values
after those already accumulated (`append`). -/
theorem headerMap_hr_duplicate_key_semantics (hint : Option Nat)
    (k1 k2 k s t : Bytes) (ss bs : List Bytes)
    (hk1 : headerNameFromBytes k1 = Option.some k)
    (hk2 : headerNameFromBytes k2 = Option.some k)
    (hs : headerValueIsValid s = true) (ht : headerValueIsValid t = true)
    (hss : ∀ v ∈ ss, headerValueIsValid v = true)
    (hbs : ∀ v ∈ bs, headerValueIsValid v = true) :
    headerMapDeserialize true hint
        (SValue.map [(k1, SValue.seq (ss.map SValue.str)), (k2, SValue.str t)]) =
      Except.ok ⟨[(k, [t])]⟩ ∧
    headerMapDeserialize true hint
        (SValue.map [(k1, SValue.str s), (k2, SValue.seq (ss.map SValue.str))]) =
      Except.ok ⟨[(k, s :: ss)]⟩ ∧
    headerMapDeserialize true hint
        (SValue.map [(k1, SValue.str s), (k2, SValue.seq (bs.map SValue.bytes))]) =
      Except.ok ⟨[(k, s :: bs)]⟩ := by
  have hOne : ∀ (m : HeaderMap) (key w : Bytes),
      headerNameFromBytes key = Option.some k → headerValueIsValid w = true →
      stepHR m key (SValue.str w) = Except.ok (m.insert k w) := by
    intro m key w hkey hw
    simp only [stepHR, oneOrMoreDeserialize, hkey, if_pos hw]
  have hStrs : ∀ (m : HeaderMap) (key : Bytes),
      headerNameFromBytes key = Option.some k →
      stepHR m key (SValue.seq (ss.map SValue.str)) =
        appendValues Unexpected.ustr m k ss := by
    intro m key hkey
    simp only [stepHR, oneOrMoreDeserialize_strs, hkey]
  refine ⟨?_, ?_, ?_⟩
  · show visitLoop stepHR ⟨[]⟩ _ = _
    have h1 : stepHR ⟨[]⟩ k1 (SValue.seq (ss.map SValue.str)) =
        Except.ok (HeaderMap.appendAll ⟨[]⟩ k ss) := by
      rw [hStrs ⟨[]⟩ k1 hk1]
      exact appendValues_ok _ _ _ _ hss
    simp only [visitLoop, h1, hOne _ k2 t hk2 ht]
    cases ss with
    | nil => rfl
    | cons w ws =>
      rw [appendAll_fresh [] k w ws (by simp)]
      exact congrArg Except.ok
        (congrArg HeaderMap.mk (insertEntry_last [] k (w :: ws) t (by simp)))
  · show visitLoop stepHR ⟨[]⟩ _ = _
    have h2 : stepHR (HeaderMap.insert ⟨[]⟩ k s) k2 (SValue.seq (ss.map SValue.str)) =
        Except.ok (HeaderMap.appendAll ⟨[(k, [s])]⟩ k ss) := by
      rw [hStrs _ k2 hk2]
      exact appendValues_ok _ _ _ _ hss
    simp only [visitLoop, hOne ⟨[]⟩ k1 s hk1 hs, h2]
    exact congrArg Except.ok (appendAll_last [] k [s] ss (by simp))
  · show visitLoop stepHR ⟨[]⟩ _ = _
    cases bs with
    | nil =>
      have h2 : stepHR (HeaderMap.insert ⟨[]⟩ k s) k2 (SValue.seq []) =
          Except.ok (HeaderMap.insert ⟨[]⟩ k s) := by
        simp only [stepHR, oneOrMoreDeserialize_nil, hk2]
        rfl
      simp only [List.map_nil, visitLoop, hOne ⟨[]⟩ k1 s hk1 hs, h2]
      rfl
    | cons b bs' =>
      have h2 : stepHR (HeaderMap.insert ⟨[]⟩ k s) k2
          (SValue.seq ((b :: bs').map SValue.bytes)) =
          Except.ok (HeaderMap.appendAll ⟨[(k, [s])]⟩ k (b :: bs')) := by
        simp only [stepHR, oneOrMoreDeserialize_bytes, hk2]
        exact appendValues_ok _ _ _ _ hbs
      simp only [visitLoop, hOne ⟨[]⟩ k1 s hk1 hs, h2]
      exact congrArg Except.ok (appendAll_last [] k [s] (b :: bs') (by simp))

/-- C10 witness: an uppercase duplicate of a name replaces via a bare string
and extends via sequences. -/
theorem headerMap_hr_duplicate_key_semantics_witness :
    headerNameFromBytes [75] = Option.some [107] ∧
    headerMapDeserialize true Option.none
        (SValue.map [([75], SValue.seq [SValue.str [99]]), ([107], SValue.str [98])]) =
      Except.ok ⟨[([107], [[98]])]⟩ ∧
    headerMapDeserialize true Option.none
        (SValue.map [([75], SValue.str [97]), ([107], SValue.seq [SValue.str [99]])]) =
      Except.ok ⟨[([107], [[97], [99]])]⟩ ∧
    headerMapDeserialize true Option.none
        (SValue.map [([75], SValue.str [97]), ([107], SValue.seq [SValue.bytes [200]])]) =
      Except.ok ⟨[([107], [[97], [200]])]⟩ := by
  have h := headerMap_hr_duplicate_key_semantics Option.none [75] [107] [107]
    [97] [98] [[99]] [[200]] (by decide) (by decide) (by decide) (by decide)
    (by decide) (by decide)
  exact ⟨by decide, h.1, h.2.1, h.2.2⟩

end HttpSerde
